import Mathlib

/-!
# mwsapi: channel actor, federated count and MathML annotation selection

A shallow embedding of three parts of the repository:

* `utils/gogroup/sync.go`: the `syncWorker` that serialises callbacks per
  channel ("wave");
* `engine/temaengine/count.go`: `Count` and the paginated join count of
  `countTemaSearchQuery`;
* `utils/mathml.go`: `filterByAttributeLocalName`.

Stateful code is written as explicit state passing.  Observable effects
(callbacks that were invoked, backend calls that were issued) are recorded in
log fields that the Go code does not have; they are only ever appended to.
-/

set_option autoImplicit false

namespace gogroup

/-! ## `utils/gogroup/sync.go` -/

/-- A `syncMessage`: the channel it is sent on, the close flag, and the code to
run.  `code` is a pointer in the source; it is modelled by `Option Nat`, the
number being the identity of the pointed-to closure and `none` being `nil`. -/
structure syncMessage where
  channel : Int
  close : Bool
  code : Option Nat
deriving DecidableEq, Repr

/-- The `syncWorker` state.  `messages` (the intake channel) is passed to
`workerThread` as the list of messages still to be received.  `done` models the
`done` channel: `true` once `worker.done <- true` has been executed.
`handled` is the log: the messages that passed the channel test of
`processMessage`, in the order in which they were handled (for each of them
the code, when not `nil`, was invoked, and the close flag, when set, was
honoured). -/
structure syncWorker where
  closed : Bool
  done : Bool
  hasActiveChannel : Bool
  activeChannel : Int
  backlog : List syncMessage
  handled : List syncMessage
deriving DecidableEq, Repr

/-- The worker built by `newSyncWorker` (before its thread runs). -/
def newSyncWorker : syncWorker :=
  { closed := false, done := false, hasActiveChannel := false, activeChannel := 0,
    backlog := [], handled := [] }

/-- The message enqueued by `SendWork`. -/
def SendWork (channel : Int) (code : Nat) : syncMessage :=
  { channel := channel, close := false, code := some code }

/-- The message enqueued by `SendClose`. -/
def SendClose (channel : Int) : syncMessage :=
  { channel := channel, close := true, code := none }

/-- Function `processMessage`: handles a single message and tells whether the
active channel was closed by it. -/
def processMessage (worker : syncWorker) (message : syncMessage) : syncWorker × Bool :=
  -- if we don't have an active channel set it to the message
  let worker1 :=
    if !worker.hasActiveChannel then
      { worker with hasActiveChannel := true, activeChannel := message.channel }
    else worker
  -- if it is a different channel, append it to the backlog
  if message.channel ≠ worker1.activeChannel then
    ({ worker1 with backlog := worker1.backlog ++ [message] }, false)
  else
    -- run the code (if any): recorded in the log
    let worker2 := { worker1 with handled := worker1.handled ++ [message] }
    -- if we are asked to close the channel, close it
    if message.close then
      ({ worker2 with hasActiveChannel := false }, true)
    else
      (worker2, false)

/-- The first loop of `workerThread`: `for i, m := range backlog`.  The second
component is `true` when a message closed the channel; then the messages after
it have been appended to the worker's backlog. -/
def scanBacklog (worker : syncWorker) : List syncMessage → syncWorker × Bool
  | [] => (worker, false)
  | m :: rest =>
    match processMessage worker m with
    | (worker1, true) => ({ worker1 with backlog := worker1.backlog ++ rest }, true)
    | (worker1, false) => scanBacklog worker1 rest

/-- The second loop of `workerThread`: `for m := range worker.messages`.  The
second component is the rest of the intake when a message closed the channel,
and `none` when the intake was closed and drained. -/
def drainMessages (worker : syncWorker) :
    List syncMessage → syncWorker × Option (List syncMessage)
  | [] => (worker, none)
  | m :: rest =>
    match processMessage worker m with
    | (worker1, true) => (worker1, some rest)
    | (worker1, false) => drainMessages worker1 rest

/-- Function `workerThread`, with the intake given as the list of messages that
are sent before the channel is closed.  Each `go worker.workerThread()` restart
costs one unit of fuel; `none` means the fuel ran out. -/
def workerThread : Nat → syncWorker → List syncMessage → Option syncWorker
  | 0, _, _ => none
  | fuel + 1, worker, messages =>
    -- grab the current backlog
    let backlog := worker.backlog
    match scanBacklog { worker with backlog := [] } backlog with
    | (worker1, true) => workerThread fuel worker1 messages
    | (worker1, false) =>
      match drainMessages worker1 messages with
      | (worker2, some rest) => workerThread fuel worker2 rest
      | (worker2, none) => some { worker2 with done := true }

/-- A whole life of a worker: `newSyncWorker`, the given messages sent in this
order, then `Wait` (which closes the intake and waits for `done`). -/
def sendAllAndWait (msgs : List syncMessage) : Option syncWorker :=
  workerThread (msgs.length + 1) newSyncWorker msgs

/-- The callbacks carried by the messages of `l` that are on channel `wave`,
in the order of `l`. -/
def callbacksOf (wave : Int) (l : List syncMessage) : List Nat :=
  (l.filter (fun m => decide (m.channel = wave))).filterMap (fun m => m.code)

/-- While a loop of `workerThread` runs, the worker's backlog holds no message
of the active channel, and it is empty while no channel is active. -/
def BacklogDeferred (w : syncWorker) : Prop :=
  (w.hasActiveChannel = true → ∀ m ∈ w.backlog, m.channel ≠ w.activeChannel) ∧
  (w.hasActiveChannel = false → w.backlog = [])

/-- Per-channel accounting against the submitted sequence `msgs`: on every
channel, the handled messages followed by the ones still waiting (backlog,
then `pending`) are the submitted ones, in the submitted order. -/
def Accounted (msgs : List syncMessage) (w : syncWorker) (pending : List syncMessage) : Prop :=
  ∀ c : Int, w.handled.filter (fun m => decide (m.channel = c)) ++
      (w.backlog ++ pending).filter (fun m => decide (m.channel = c)) =
    msgs.filter (fun m => decide (m.channel = c))

/-- Every handled message that is not on channel `A` comes after a handled
close of `A`. -/
def ClosedBefore (A : Int) (handled : List syncMessage) : Prop :=
  ∀ pre m post, handled = pre ++ m :: post → m.channel ≠ A →
    ∃ c ∈ pre, c.channel = A ∧ c.close = true

/-- The invariant behind wave exclusivity: nothing handled yet and `A` is next
to become active; or `A` is active and only open messages of `A` were handled;
or a close of `A` was handled. -/
def Exclusive (A : Int) (w : syncWorker) (pending : List syncMessage) : Prop :=
  (w.handled = [] ∧ w.hasActiveChannel = false ∧
      ∃ m rest, w.backlog ++ pending = m :: rest ∧ m.channel = A) ∨
  (w.hasActiveChannel = true ∧ w.activeChannel = A ∧
      ∀ m ∈ w.handled, m.channel = A ∧ m.close = false) ∨
  ((∃ c ∈ w.handled, c.channel = A ∧ c.close = true) ∧ ClosedBefore A w.handled)

/-- What a predicate on (worker, messages still to be looked at) needs in order
to hold throughout `workerThread`: it does not depend on where the waiting
messages are held (backlog or not yet looked at), nor on `done`, and
`processMessage` keeps it. -/
structure LoopInvariant (P : syncWorker → List syncMessage → Prop) : Prop where
  reshuffle : ∀ (w : syncWorker) (b p b1 p1 : List syncMessage), b ++ p = b1 ++ p1 →
    P { w with backlog := b } p → P { w with backlog := b1 } p1
  finish : ∀ (w : syncWorker) (p : List syncMessage), P w p → P { w with done := true } p
  step : ∀ (w : syncWorker) (m : syncMessage) (rest : List syncMessage),
    BacklogDeferred w → P w (m :: rest) → P (processMessage w m).1 rest

/-- Every message of the sequence is followed, at its own or a later position,
by a message on its channel that has the close flag set. -/
def everyWaveClosed : List syncMessage → Bool
  | [] => true
  | m :: rest =>
    (m :: rest).any (fun c => decide (c.channel = m.channel) && c.close) &&
      everyWaveClosed rest

/-- While a channel is active, the message handled last is on that channel and
did not close it. -/
def ActiveOpen (w : syncWorker) (_pending : List syncMessage) : Prop :=
  w.hasActiveChannel = true →
    ∃ init m, w.handled = init ++ [m] ∧ m.channel = w.activeChannel ∧ m.close = false

end gogroup

/-! ## `query/mws.go` and the query types used by `Count` -/

namespace query

/-- A user-provided MWS query (`query/mws.go`). -/
structure MWSQuery where
  Expressions : List String
  MwsIdsOnly : Bool
deriving DecidableEq, Repr

/-- An elasticsearch query: the identifiers to restrict to and the text, as
built in `cmd/elasticquery/cmd/main.go`.  A `nil` identifier slice is `[]`. -/
structure ElasticQuery where
  MathWebSearchIDs : List Int
  Text : String
deriving DecidableEq, Repr

/-- The kinds of query told apart by `Count`.  The last one is the kind left
over when the first three tests of `Count` fail. -/
inductive Kind where
  | EmptyQueryKind
  | MWSQueryKind
  | ElasticQueryKind
  | TemaSearchQueryKind
deriving DecidableEq, Repr

/-- Modelled from the spec: the type `query.Query` and its methods `Kind`,
`MWSQuery` and `ElasticQuery` are not among the sources.  A query is
immutable and its methods are pure, so it is given by what they return: its
kind, the outer math sub-query, and the inner text sub-query for a list of
identifiers. -/
structure Query where
  Kind : Kind
  MWSQuery : MWSQuery
  ElasticQuery : List Int → ElasticQuery

end query

/-! ## `engine/temaengine/count.go` -/

namespace temaengine

/-- An `error` value: one made by a backend, or one made by `errors.Wrap` from a
cause and a message. -/
inductive GoError where
  | backend (msg : String)
  | wrap (cause : GoError) (message : String)
deriving DecidableEq, Repr

/-- Function `errors.Wrap` of `github.com/pkg/errors`: `nil` stays `nil`, any
other error is annotated with the message. -/
def errorsWrap (err : Option GoError) (message : String) : Option GoError :=
  match err with
  | none => none
  | some e => some (GoError.wrap e message)

/-- Function `errors.Cause`: the innermost error. -/
def GoError.Cause : GoError → GoError
  | GoError.backend msg => GoError.backend msg
  | GoError.wrap cause _ => cause.Cause

/-- Two's complement wrap-around of `int64` arithmetic. -/
def wrapInt64 (x : Int) : Int :=
  (x + 2 ^ 63) % 2 ^ 64 - 2 ^ 63

/-- The largest `int64`. -/
def maxInt64 : Int := 2 ^ 63 - 1

/-- A `connection.TemaConnection`: the configuration values read by `Count`
(`conn.MWS.Config.PoolSize`, `conn.MWS.Config.MaxPageSize`) and the answers of
the two backends.  The engines `mwsengine.Count`, `mwsengine.Run` (of which
only the `HitIDs` of the result are used) and `elasticengine.Count` send the
query to a backend over the network; what comes back is a field here, a
function of the request (a fixed backend state). -/
structure TemaConnection where
  PoolSize : Int
  MaxPageSize : Int
  mwsCount : query.MWSQuery → Int × Option GoError
  mwsRun : query.MWSQuery → Int → Int → List Int × Option GoError
  elasticCount : query.ElasticQuery → Int × Option GoError

/-- The observable steps of a count: calls of the backends, and jobs added to
the work group (with the offset the job was made for). -/
inductive Call where
  | mwsCount (q : query.MWSQuery)
  | mwsRun (q : query.MWSQuery) (start size : Int)
  | elasticCount (q : query.ElasticQuery)
  | groupAdd (start : Int)
deriving DecidableEq, Repr

/-- What the jobs of one count share: the running total `count` and the log of
calls. -/
structure CountState where
  count : Int
  calls : List Call
deriving DecidableEq, Repr

/-- A `gogroup.GroupJob`: it may change the shared state and returns an error
or `nil`. -/
abbrev GroupJob := CountState → CountState × Option GoError

/-- Modelled from the spec: `gogroup.WorkGroup` (`NewWorkGroup`, `Add`, `Wait`)
is not among the sources.  The spec: jobs are independent, at most `poolSize`
run at a time, `wait` returns the first error or none, and after the first
error no additional job is dispatched.  The jobs here only add to the total,
so the order in which they run does not change the total; this model runs them
one after the other in the order in which they were added. -/
structure WorkGroup where
  poolSize : Int
  jobs : List GroupJob

/-- Modelled from the spec: `gogroup.NewWorkGroup(poolSize, orderedWaves)`. -/
def NewWorkGroup (poolSize : Int) (_orderedWaves : Bool) : WorkGroup :=
  { poolSize := poolSize, jobs := [] }

/-- Modelled from the spec: `group.Add(job)` registers a job. -/
def WorkGroup.Add (group : WorkGroup) (job : GroupJob) : WorkGroup :=
  { group with jobs := group.jobs ++ [job] }

/-- Modelled from the spec: the jobs are run in turn; the first error stops the
dispatch of the remaining ones and is returned. -/
def runJobs : List GroupJob → CountState → CountState × Option GoError
  | [], st => (st, none)
  | job :: rest, st =>
    match job st with
    | (st1, some e) => (st1, some e)
    | (st1, none) => runJobs rest st1

/-- Modelled from the spec: `group.Wait()`. -/
def WorkGroup.Wait (group : WorkGroup) (st : CountState) : CountState × Option GoError :=
  runJobs group.jobs st

/-- The result of a count: the two returned values and the log of calls. -/
structure CountResult where
  count : Int
  err : Option GoError
  calls : List Call
deriving DecidableEq, Repr

/-- Function `countMWSQuery`. -/
def countMWSQuery (conn : TemaConnection) (q : query.Query) : CountResult :=
  let r := conn.mwsCount q.MWSQuery
  { count := r.1, err := r.2, calls := [Call.mwsCount q.MWSQuery] }

/-- Function `countElasticQuery`. -/
def countElasticQuery (conn : TemaConnection) (q : query.Query) (mwsIds : List Int) :
    CountResult :=
  let r := conn.elasticCount (q.ElasticQuery mwsIds)
  { count := r.1, err := r.2, calls := [Call.elasticCount (q.ElasticQuery mwsIds)] }

/-- The job that `countTemaSearchQuery` makes for the offset `start`. -/
def pageJob (conn : TemaConnection) (q : query.Query) (qq : query.MWSQuery) (start : Int) :
    GroupJob := fun st =>
  -- run the outer query and exit if it has an empty result
  let outer := conn.mwsRun qq start conn.MaxPageSize
  let st1 := { st with calls := st.calls ++ [Call.mwsRun qq start conn.MaxPageSize] }
  let e := errorsWrap outer.2 "mwsengine.Run failed"
  if e ≠ none ∨ outer.1.length = 0 then (st1, e)
  else
    -- get the total number of inner results
    let inner := conn.elasticCount (q.ElasticQuery outer.1)
    let st2 := { st1 with calls := st1.calls ++ [Call.elasticCount (q.ElasticQuery outer.1)] }
    let e := errorsWrap inner.2 "elasticengine.Count failed"
    if e ≠ none then (st2, e)
    else
      -- add them and return
      ({ st2 with count := wrapInt64 (st2.count + inner.1) }, none)

/-- The loop `for i := int64(0); i <= outerTotal; i += size` of
`countTemaSearchQuery`, started at `i`: the offsets for which a job is made.
One unit of fuel per iteration; `none` when the fuel runs out. -/
def pageOffsets : Nat → Int → Int → Int → Option (List Int)
  | 0, _, _, _ => none
  | fuel + 1, i, outerTotal, size =>
    if i ≤ outerTotal then
      match pageOffsets fuel (wrapInt64 (i + size)) outerTotal size with
      | some offsets => some (i :: offsets)
      | none => none
    else some []

/-- Adds the job of each offset to the group, in order, and logs it. -/
def addJobs (conn : TemaConnection) (q : query.Query) (qq : query.MWSQuery) :
    List Int → WorkGroup × CountState → WorkGroup × CountState
  | [], gs => gs
  | start :: rest, gs =>
    addJobs conn q qq rest
      (gs.1.Add (pageJob conn q qq start),
       { gs.2 with calls := gs.2.calls ++ [Call.groupAdd start] })

/-- Function `countTemaSearchQuery`.  `none` when the loop that adds the jobs
does not end within `fuel` iterations. -/
def countTemaSearchQuery (fuel : Nat) (conn : TemaConnection) (q : query.Query) :
    Option CountResult :=
  -- build the outer query
  let qq := q.MWSQuery
  -- query the total number of outer results
  let r := conn.mwsCount qq
  let outerTotal := r.1
  let st0 : CountState := { count := 0, calls := [Call.mwsCount qq] }
  let err := errorsWrap r.2 "mwsengine.Count failed"
  if err ≠ none ∨ outerTotal = 0 then
    some { count := st0.count, err := err, calls := st0.calls }
  else
    -- create a group for at most (PoolSize) parallel operations
    let group := NewWorkGroup conn.PoolSize false
    -- and add the jobs
    let size := conn.PoolSize
    match pageOffsets fuel 0 outerTotal size with
    | none => none
    | some offsets =>
      let gs := addJobs conn q qq offsets (group, st0)
      -- then wait
      let res := gs.1.Wait gs.2
      some { count := res.1.count, err := res.2, calls := res.1.calls }

/-- Function `Count`: counts the results of a tema query. -/
def Count (fuel : Nat) (conn : TemaConnection) (q : query.Query) : Option CountResult :=
  -- get the query type
  let tp := q.Kind
  -- empty queries have 0 results
  if tp = query.Kind.EmptyQueryKind then
    some { count := 0, err := none, calls := [] }
  -- count mws queries using the appropriate function
  else if tp = query.Kind.MWSQueryKind then
    let r := countMWSQuery conn q
    some { r with err := errorsWrap r.err "countMWSQuery failed" }
  -- count elastic queries using the appropriate function
  else if tp = query.Kind.ElasticQueryKind then
    let r := countElasticQuery conn q []
    some { r with err := errorsWrap r.err "countElasticQuery failed" }
  else
    match countTemaSearchQuery fuel conn q with
    | none => none
    | some r => some { r with err := errorsWrap r.err "countTemaSearchQuery failed" }

/-- The offsets of the outer pages requested from the math backend, in the
order of the log. -/
def pagesRequested : List Call → List Int
  | [] => []
  | Call.mwsRun _ start _ :: rest => start :: pagesRequested rest
  | _ :: rest => pagesRequested rest

/-- The offsets for which a job was added to the work group. -/
def jobsAdded : List Call → List Int
  | [] => []
  | Call.groupAdd start :: rest => start :: jobsAdded rest
  | _ :: rest => jobsAdded rest

/-- A fixed backend state without errors: the math backend holds the ordered
hit identifiers `hits` and serves the window `[start, start + size)` of them,
the text backend answers `textCount` of the query it is sent. -/
def fixedBackend (hits : List Int) (textCount : query.ElasticQuery → Int)
    (poolSize maxPageSize : Int) : TemaConnection :=
  { PoolSize := poolSize
    MaxPageSize := maxPageSize
    mwsCount := fun _ => ((hits.length : Int), none)
    mwsRun := fun _ start size => ((hits.drop start.toNat).take size.toNat, none)
    elasticCount := fun eq => (textCount eq, none) }

/-- A text backend state in which every identifier matches one document: the
count for a filter is the number of identifiers in it. -/
def countIds (eq : query.ElasticQuery) : Int := eq.MathWebSearchIDs.length

/-- A connection whose backends fail on every call. -/
def failingConnection : TemaConnection :=
  { PoolSize := 3
    MaxPageSize := 3
    mwsCount := fun _ => (0, some (GoError.backend "mws down"))
    mwsRun := fun _ _ _ => ([], some (GoError.backend "mws down"))
    elasticCount := fun _ => (0, some (GoError.backend "elastic down")) }

/-- A math backend that reports the largest `int64` as the outer total. -/
def hugeTotalConnection : TemaConnection :=
  { PoolSize := 1
    MaxPageSize := 1
    mwsCount := fun _ => (maxInt64, none)
    mwsRun := fun _ _ _ => ([], none)
    elasticCount := fun _ => (0, none) }

/-- The identifiers of the outer page at offset `start`, as the job for that
offset receives them. -/
def pageOf (conn : TemaConnection) (q : query.Query) (start : Int) : List Int :=
  (conn.mwsRun q.MWSQuery start conn.MaxPageSize).1

/-- What the job for the offset `start` adds to the total when no backend
fails: nothing for an empty page, else the text backend's count for the
identifiers of the page. -/
def pageCount (conn : TemaConnection) (q : query.Query) (start : Int) : Int :=
  if (pageOf conn q start).length = 0 then 0
  else (conn.elasticCount (q.ElasticQuery (pageOf conn q start))).1

/-- The backend calls of the job for the offset `start` when no backend
fails. -/
def jobCalls (conn : TemaConnection) (q : query.Query) (start : Int) : List Call :=
  if (pageOf conn q start).length = 0 then [Call.mwsRun q.MWSQuery start conn.MaxPageSize]
  else [Call.mwsRun q.MWSQuery start conn.MaxPageSize,
        Call.elasticCount (q.ElasticQuery (pageOf conn q start))]

/-- A query of the given kind: math expression `x` together with the text `t`. -/
def sampleQuery (kind : query.Kind) : query.Query :=
  { Kind := kind
    MWSQuery := { Expressions := ["x"], MwsIdsOnly := true }
    ElasticQuery := fun ids => { MathWebSearchIDs := ids, Text := "t" } }

/-- A federated query. -/
def federatedQuery : query.Query := sampleQuery query.Kind.TemaSearchQueryKind

end temaengine

/-! ## `utils/mathml.go` -/

namespace utils

/-- An `xml.Name` of `encoding/xml`. -/
structure Name where
  Space : String
  Local : String
deriving DecidableEq, Repr

/-- An `xml.Attr` of `encoding/xml`. -/
structure Attr where
  Name : Name
  Value : String
deriving DecidableEq, Repr

/-- An `xmlquery.Node`, as far as `filterByAttributeLocalName` looks at it: the
element name and the attributes. -/
structure Node where
  Data : String
  Attr : List Attr
deriving DecidableEq, Repr

/-- The inner loop of `filterByAttributeLocalName`, `for _, attr := range
node.Attr`: appends `node` to `nodes` at the first attribute whose local name
is `localName` and leaves the loop. -/
def appendOnAttr (nodes : List Node) (node : Node) (localName : String) :
    List Attr → List Node
  | [] => nodes
  | attr :: rest =>
    if attr.Name.Local = localName then nodes ++ [node]
    else appendOnAttr nodes node localName rest

/-- The outer loop of `filterByAttributeLocalName`, `for _, node := range
nodesIn`, with the result built so far. -/
def filterLoop (localName : String) : List Node → List Node → List Node
  | [], nodes => nodes
  | node :: rest, nodes => filterLoop localName rest (appendOnAttr nodes node localName node.Attr)

set_option linter.unusedVariables false in
/-- Function `filterByAttributeLocalName`.  The parameter `value` is not used
by the body. -/
def filterByAttributeLocalName (nodesIn : List Node) (localName : String) (value : String) :
    List Node :=
  filterLoop localName nodesIn []

/-- The selection step of `ParseMathML`, given the nodes found by the query
for `annotation-xml` elements: they are filtered by
`filterByAttributeLocalName(annotations, "encoding", "MathML-Content")`, an
empty result is the error, and else `annotations[0]` is picked. -/
def pickAnnotated (annotations : List Node) : Except String Node :=
  match filterByAttributeLocalName annotations "encoding" "MathML-Content" with
  | [] => Except.error
      "[ParseMathML] <semantics> element did not contain any MathML-Content <annotation-xml>"
  | first :: _ => Except.ok first

/-- The element `<annotation-xml encoding="application/x-tex">`. -/
def texNode : Node :=
  { Data := "annotation-xml"
    Attr := [{ Name := { Space := "", Local := "encoding" }, Value := "application/x-tex" }] }

end utils


/-! ## Theorems: the channel actor -/

namespace gogroup

theorem processMessage_cases (w : syncWorker) (m : syncMessage) :
    (processMessage w m = ({ w with backlog := w.backlog ++ [m] }, false) ∧
        w.hasActiveChannel = true ∧ m.channel ≠ w.activeChannel) ∨
    (∃ w1, processMessage w m = (w1, m.close) ∧ w1.handled = w.handled ++ [m] ∧
        w1.backlog = w.backlog ∧
        (w.hasActiveChannel = true → m.channel = w.activeChannel) ∧
        (m.close = false → w1.hasActiveChannel = true ∧ w1.activeChannel = m.channel) ∧
        (m.close = true → w1.hasActiveChannel = false)) := by
  cases hA : w.hasActiveChannel <;> cases hc : m.close <;>
    by_cases hch : m.channel = w.activeChannel <;>
    simp [processMessage, hA, hc, hch]

theorem backlogDeferred_step (w : syncWorker) (m : syncMessage) (hw : BacklogDeferred w)
    (hopen : (processMessage w m).2 = false) : BacklogDeferred (processMessage w m).1 := by
  rcases processMessage_cases w m with ⟨he, hA, hne⟩ | ⟨w1, he, hh, hb, hact, hno, hyes⟩
  · rw [he]
    refine ⟨fun _ x hx => ?_, fun h => ?_⟩
    · simp only [List.mem_append, List.mem_singleton] at hx
      rcases hx with hx | hx
      · exact hw.1 hA x hx
      · subst hx; exact hne
    · simp [hA] at h
  · rw [he] at hopen ⊢
    simp only at hopen ⊢
    obtain ⟨h1, h2⟩ := hno hopen
    refine ⟨fun _ x hx => ?_, fun h => ?_⟩
    · rw [hb] at hx
      rw [h2]
      cases hA : w.hasActiveChannel
      · rw [hw.2 hA] at hx; simp at hx
      · rw [hact hA]; exact hw.1 hA x hx
    · rw [h1] at h; simp at h

theorem processMessage_backlog (w : syncWorker) (m : syncMessage) :
    ((processMessage w m).2 = true → (processMessage w m).1.backlog = w.backlog) ∧
    ((processMessage w m).2 = false →
      (processMessage w m).1.backlog.length ≤ w.backlog.length + 1) := by
  rcases processMessage_cases w m with ⟨he, _, _⟩ | ⟨w1, he, _, hb, _, _, _⟩
  · rw [he]; simp
  · rw [he]; simp [hb]

theorem scanBacklog_invariant {P : syncWorker → List syncMessage → Prop}
    (hP : LoopInvariant P) :
    ∀ (loc : List syncMessage) (w : syncWorker) (p : List syncMessage),
      BacklogDeferred w → P w (loc ++ p) →
      P (scanBacklog w loc).1 p ∧
      ((scanBacklog w loc).2 = true →
        (scanBacklog w loc).1.backlog.length < w.backlog.length + loc.length) ∧
      ((scanBacklog w loc).2 = false →
        BacklogDeferred (scanBacklog w loc).1 ∧
        (scanBacklog w loc).1.backlog.length ≤ w.backlog.length + loc.length) := by
  intro loc
  induction loc with
  | nil =>
    intro w p hw hp
    simpa [scanBacklog] using ⟨hp, hw⟩
  | cons m rest ih =>
    intro w p hw hp
    have hstep := hP.step w m (rest ++ p) hw hp
    have hdef := backlogDeferred_step w m hw
    have hlen := processMessage_backlog w m
    rcases hpm : processMessage w m with ⟨w1, b⟩
    rw [hpm] at hstep hdef hlen
    cases b with
    | true =>
      have hb : w1.backlog = w.backlog := hlen.1 rfl
      simp only [scanBacklog, hpm]
      refine ⟨?_, fun _ => ?_, fun h => ?_⟩
      · exact hP.reshuffle w1 w1.backlog (rest ++ p) (w1.backlog ++ rest) p
          (by simp) hstep
      · simp [hb]
      · simp at h
    | false =>
      have hl : w1.backlog.length ≤ w.backlog.length + 1 := hlen.2 rfl
      obtain ⟨h1, h2, h3⟩ := ih w1 p (hdef rfl) hstep
      simp only [scanBacklog, hpm]
      refine ⟨h1, fun h => ?_, fun h => ⟨(h3 h).1, ?_⟩⟩
      · have := h2 h
        simp only [List.length_cons]; omega
      · have := (h3 h).2
        simp only [List.length_cons]; omega

theorem drainMessages_invariant {P : syncWorker → List syncMessage → Prop}
    (hP : LoopInvariant P) :
    ∀ (msgs : List syncMessage) (w : syncWorker),
      BacklogDeferred w → P w msgs →
      (∀ rest, (drainMessages w msgs).2 = some rest →
        P (drainMessages w msgs).1 rest ∧
        (drainMessages w msgs).1.backlog.length + rest.length <
          w.backlog.length + msgs.length) ∧
      ((drainMessages w msgs).2 = none → P (drainMessages w msgs).1 []) := by
  intro msgs
  induction msgs with
  | nil =>
    intro w hw hp
    simpa [drainMessages] using hp
  | cons m rest ih =>
    intro w hw hp
    have hstep := hP.step w m rest hw hp
    have hdef := backlogDeferred_step w m hw
    have hlen := processMessage_backlog w m
    rcases hpm : processMessage w m with ⟨w1, b⟩
    rw [hpm] at hstep hdef hlen
    cases b with
    | true =>
      have hb : w1.backlog = w.backlog := hlen.1 rfl
      simp only [drainMessages, hpm]
      refine ⟨fun r hr => ?_, fun h => ?_⟩
      · simp only [Option.some.injEq] at hr
        subst hr
        exact ⟨hstep, by simp [hb]⟩
      · simp at h
    | false =>
      have hl : w1.backlog.length ≤ w.backlog.length + 1 := hlen.2 rfl
      obtain ⟨h1, h2⟩ := ih w1 (hdef rfl) hstep
      simp only [drainMessages, hpm]
      refine ⟨fun r hr => ⟨(h1 r hr).1, ?_⟩, h2⟩
      have := (h1 r hr).2
      simp only [List.length_cons]; omega

/-- With more fuel than there are waiting messages, `workerThread` ends and
signals `done`, and a loop invariant that held at the start holds at the end. -/
theorem workerThread_invariant {P : syncWorker → List syncMessage → Prop}
    (hP : LoopInvariant P) :
    ∀ (fuel : Nat) (w : syncWorker) (msgs : List syncMessage),
      w.backlog.length + msgs.length < fuel → P w msgs →
      ∃ w1, workerThread fuel w msgs = some w1 ∧ w1.done = true ∧ P w1 [] := by
  intro fuel
  induction fuel with
  | zero => intro w msgs h; omega
  | succ fuel ih =>
    intro w msgs hfuel hp
    have hw0 : BacklogDeferred { w with backlog := [] } := ⟨fun _ m hm => by simp at hm, fun _ => rfl⟩
    have hp0 : P { w with backlog := [] } (w.backlog ++ msgs) :=
      hP.reshuffle w w.backlog msgs [] (w.backlog ++ msgs) (by simp) hp
    obtain ⟨h1, h2, h3⟩ := scanBacklog_invariant hP w.backlog { w with backlog := [] } msgs hw0 hp0
    simp only [workerThread]
    rcases hs : scanBacklog { w with backlog := [] } w.backlog with ⟨w1, b⟩
    rw [hs] at h1 h2 h3
    cases b with
    | true =>
      have := h2 rfl
      simp only [List.length_nil] at this
      exact ih w1 msgs (by omega) h1
    | false =>
      obtain ⟨hw1, hl1⟩ := h3 rfl
      simp only [List.length_nil] at hl1
      obtain ⟨h4, h5⟩ := drainMessages_invariant hP msgs w1 hw1 h1
      dsimp only
      rcases hd : drainMessages w1 msgs with ⟨w2, r⟩
      rw [hd] at h4 h5
      cases r with
      | some rest =>
        obtain ⟨h6, h7⟩ := h4 rest rfl
        exact ih w2 rest (by simp only at h7; omega) h6
      | none =>
        exact ⟨{ w2 with done := true }, rfl, rfl, hP.finish w2 [] (h5 rfl)⟩

theorem accounted_loopInvariant (msgs : List syncMessage) : LoopInvariant (Accounted msgs) where
  reshuffle := by
    intro w b p b1 p1 h hp c
    have := hp c
    simp only at this ⊢
    rw [← h]; exact this
  finish := fun w p hp c => hp c
  step := by
    intro w m rest hw hp c
    have hpc := hp c
    rcases processMessage_cases w m with ⟨he, _, _⟩ | ⟨w1, he, hh, hb, hact, _, _⟩
    · rw [he]
      simpa using hpc
    · rw [he]
      simp only [hh, hb]
      have hbk : ∀ x ∈ w.backlog, x.channel ≠ m.channel := by
        intro x hx
        cases hA : w.hasActiveChannel
        · rw [hw.2 hA] at hx; simp at hx
        · rw [hact hA]; exact hw.1 hA x hx
      by_cases hc : m.channel = c
      · have hnil : w.backlog.filter (fun x => decide (x.channel = c)) = [] := by
          rw [List.filter_eq_nil_iff]
          intro x hx
          simpa [← hc] using hbk x hx
        rw [← hpc]
        simp [List.filter_append, List.filter_cons, hc, hnil]
      · rw [← hpc]
        simp [List.filter_append, List.filter_cons, hc]

theorem closedBefore_snoc {A : Int} {l : List syncMessage} {m : syncMessage}
    (hl : ClosedBefore A l)
    (hm : m.channel ≠ A → ∃ c ∈ l, c.channel = A ∧ c.close = true) :
    ClosedBefore A (l ++ [m]) := by
  intro pre x post heq hx
  rcases List.append_eq_append_iff.mp heq with ⟨a, h1, h2⟩ | ⟨c, h1, h2⟩
  · cases a with
    | nil =>
      simp only [List.nil_append, List.cons.injEq] at h2
      simp only [List.append_nil] at h1
      rw [h1]; exact hm (h2.1 ▸ hx)
    | cons y a =>
      simp only [List.cons_append, List.cons.injEq] at h2
      have := h2.2
      cases a <;> simp at this
  · cases c with
    | nil =>
      simp only [List.nil_append, List.cons.injEq] at h2
      simp only [List.append_nil] at h1
      rw [← h1]; exact hm (h2.1 ▸ hx)
    | cons y c =>
      simp only [List.cons_append, List.cons.injEq] at h2
      rw [← h2.1] at h1
      exact hl pre x c h1 hx

theorem exclusive_loopInvariant (A : Int) : LoopInvariant (Exclusive A) where
  reshuffle := by
    intro w b p b1 p1 h hp
    rcases hp with ⟨h1, h2, m, rest, h3, h4⟩ | hp | hp
    · exact Or.inl ⟨h1, h2, m, rest, by simpa [← h] using h3, h4⟩
    · exact Or.inr (Or.inl hp)
    · exact Or.inr (Or.inr hp)
  finish := fun w p hp => hp
  step := by
    intro w m rest hw hp
    rcases processMessage_cases w m with ⟨he, hA, _⟩ | ⟨w1, he, hh, hb, hact, hno, hyes⟩
    · rw [he]
      rcases hp with ⟨_, h2, _⟩ | hp | hp
      · rw [hA] at h2; simp at h2
      · exact Or.inr (Or.inl hp)
      · exact Or.inr (Or.inr hp)
    · rw [he]
      simp only
      have key : (m.channel = A ∧ ∀ x ∈ w.handled, x.channel = A ∧ x.close = false) ∨
          ((∃ c ∈ w.handled, c.channel = A ∧ c.close = true) ∧ ClosedBefore A w.handled) := by
        rcases hp with ⟨h1, h2, x, r, h3, h4⟩ | ⟨h1, h2, h3⟩ | hp
        · rw [hw.2 h2] at h3
          simp only [List.nil_append, List.cons.injEq] at h3
          refine Or.inl ⟨by rw [h3.1]; exact h4, ?_⟩
          rw [h1]; simp
        · exact Or.inl ⟨by rw [hact h1, h2], h3⟩
        · exact Or.inr hp
      rcases key with ⟨hmA, hall⟩ | ⟨⟨c, hc, hc2⟩, hcb⟩
      · have hcb : ClosedBefore A w.handled := by
          intro pre x post heq hx
          exact absurd (hall x (by rw [heq]; simp)).1 hx
        cases hcl : m.close
        · obtain ⟨h1, h2⟩ := hno hcl
          refine Or.inr (Or.inl ⟨h1, by rw [h2, hmA], ?_⟩)
          intro x hx
          rw [hh] at hx
          simp only [List.mem_append, List.mem_singleton] at hx
          rcases hx with hx | hx
          · exact hall x hx
          · subst hx; exact ⟨hmA, hcl⟩
        · refine Or.inr (Or.inr ⟨⟨m, by rw [hh]; simp, hmA, hcl⟩, ?_⟩)
          rw [hh]
          exact closedBefore_snoc hcb (fun h => absurd hmA h)
      · refine Or.inr (Or.inr ⟨⟨c, by rw [hh]; simp [hc], hc2⟩, ?_⟩)
        rw [hh]
        exact closedBefore_snoc hcb (fun _ => ⟨c, hc, hc2⟩)

/-- Every submitted sequence is worked off completely: `sendAllAndWait` has
enough fuel, signals `done`, and ends with the per-channel accounting. -/
theorem sendAllAndWait_accounted (msgs : List syncMessage) :
    ∃ w, sendAllAndWait msgs = some w ∧ w.done = true ∧ Accounted msgs w [] := by
  apply workerThread_invariant (accounted_loopInvariant msgs)
  · simp [newSyncWorker]
  · intro c; simp [newSyncWorker]

/-- C1 (per-wave FIFO).  For every finite sequence `msgs` of messages sent to
the worker and every wave `wave`, the worker finishes, and the callbacks of
`wave` that it has run form a sublist of the callbacks of `wave` that were
submitted: they ran in the order of submission and none ran more often than it
was submitted; in particular none ran twice when the submitted callbacks of the
wave are pairwise distinct. -/
theorem C1_per_wave_fifo (msgs : List syncMessage) (wave : Int) :
    ∃ w, sendAllAndWait msgs = some w ∧
      List.Sublist (callbacksOf wave w.handled) (callbacksOf wave msgs) ∧
      ((callbacksOf wave msgs).Nodup → (callbacksOf wave w.handled).Nodup) := by
  obtain ⟨w, hw, _, hacc⟩ := sendAllAndWait_accounted msgs
  have hsub : List.Sublist (callbacksOf wave w.handled) (callbacksOf wave msgs) := by
    unfold callbacksOf
    rw [← hacc wave, List.filterMap_append]
    exact List.sublist_append_left _ _
  exact ⟨w, hw, hsub, fun h => h.sublist hsub⟩

/-- C2 (wave exclusivity).  When the first message sent is on wave `A` (so `A`
becomes the active wave first) and `B` is another wave, the worker finishes and
every message of `B` that it handled, in particular every callback of `B` that
it ran, comes later in the log than a handled close-marker of `A`. -/
theorem C2_wave_exclusivity (A B : Int) (first : syncMessage) (rest : List syncMessage)
    (hAB : A ≠ B) (hfirst : first.channel = A) :
    ∃ w, sendAllAndWait (first :: rest) = some w ∧
      ∀ pre m post, w.handled = pre ++ m :: post → m.channel = B →
        ∃ c ∈ pre, c.channel = A ∧ c.close = true := by
  have h := workerThread_invariant (exclusive_loopInvariant A) ((first :: rest).length + 1)
    newSyncWorker (first :: rest) (by simp [newSyncWorker])
    (Or.inl ⟨rfl, rfl, first, rest, by simp [newSyncWorker], hfirst⟩)
  obtain ⟨w, hw, _, hex⟩ := h
  refine ⟨w, hw, ?_⟩
  intro pre m post heq hm
  have hmA : m.channel ≠ A := by rw [hm]; exact fun h => hAB h.symm
  rcases hex with ⟨h1, _⟩ | ⟨_, _, h3⟩ | ⟨_, hcb⟩
  · rw [heq] at h1; simp at h1
  · exact absurd (h3 m (by rw [heq]; simp)).1 hmA
  · exact hcb pre m post heq hmA

/-- A run of C2: `A = 1` is active first, work for `B = 2` arrives before the
close of `A`. -/
theorem C2_wave_exclusivity_witness :
    ∃ w, sendAllAndWait (SendWork 1 10 :: [SendWork 2 20, SendClose 1, SendClose 2]) = some w ∧
      ∀ pre m post, w.handled = pre ++ m :: post → m.channel = 2 →
        ∃ c ∈ pre, c.channel = 1 ∧ c.close = true :=
  C2_wave_exclusivity 1 2 (SendWork 1 10) [SendWork 2 20, SendClose 1, SendClose 2]
    (by decide) rfl

/-- C3 (drop on close).  For every sequence `msgs` the worker finishes and
signals `done`, and every submitted message is accounted for exactly once:
either it was handled, or it is still in the backlog at the end, where nothing
will ever handle it.  For `SendWork(A, f)`, `SendWork(B, g)`, `Wait()` with
`A ≠ B`, the callback `f` runs and the message carrying `g` is left in the
backlog. -/
theorem C3_drop_on_close (msgs : List syncMessage) (A B : Int) (f g : Nat) (hAB : A ≠ B) :
    (∃ w, sendAllAndWait msgs = some w ∧ w.done = true ∧
      List.Perm msgs (w.handled ++ w.backlog)) ∧
    sendAllAndWait [SendWork A f, SendWork B g] =
      some { closed := false, done := true, hasActiveChannel := true, activeChannel := A,
             backlog := [SendWork B g], handled := [SendWork A f] } := by
  constructor
  · obtain ⟨w, hw, hd, hacc⟩ := sendAllAndWait_accounted msgs
    refine ⟨w, hw, hd, ?_⟩
    rw [List.perm_iff_count]
    intro a
    have h := congrArg (List.count a) (hacc a.channel)
    simp only [List.append_nil, List.count_append] at h
    rw [List.count_filter (by simp), List.count_filter (by simp),
      List.count_filter (by simp)] at h
    rw [List.count_append]; exact h.symm
  · have hBA : ¬ B = A := fun h => hAB h.symm
    simp [sendAllAndWait, workerThread, scanBacklog, drainMessages, processMessage,
      newSyncWorker, SendWork, hBA]

/-- The scenario of C3 with `A = 1`, `B = 2`, on the sequence in which wave `2`
is queued behind the never-closed wave `1`. -/
theorem C3_drop_on_close_witness :
    (∃ w, sendAllAndWait [SendWork 1 10, SendWork 2 20] = some w ∧ w.done = true ∧
      List.Perm [SendWork 1 10, SendWork 2 20] (w.handled ++ w.backlog)) ∧
    sendAllAndWait [SendWork 1 10, SendWork 2 20] =
      some { closed := false, done := true, hasActiveChannel := true, activeChannel := 1,
             backlog := [SendWork 2 20], handled := [SendWork 1 10] } :=
  C3_drop_on_close [SendWork 1 10, SendWork 2 20] 1 2 10 20 (by decide)

theorem trivial_loopInvariant : LoopInvariant (fun _ _ => True) where
  reshuffle := fun _ _ _ _ _ _ _ => trivial
  finish := fun _ _ _ => trivial
  step := fun _ _ _ _ _ => trivial

theorem loopInvariant_and {P Q : syncWorker → List syncMessage → Prop}
    (hP : LoopInvariant P) (hQ : LoopInvariant Q) :
    LoopInvariant (fun w p => P w p ∧ Q w p) where
  reshuffle := fun w b p b1 p1 h hpq =>
    ⟨hP.reshuffle w b p b1 p1 h hpq.1, hQ.reshuffle w b p b1 p1 h hpq.2⟩
  finish := fun w p hpq => ⟨hP.finish w p hpq.1, hQ.finish w p hpq.2⟩
  step := fun w m rest hw hpq => ⟨hP.step w m rest hw hpq.1, hQ.step w m rest hw hpq.2⟩

theorem activeOpen_loopInvariant : LoopInvariant ActiveOpen where
  reshuffle := fun _ _ _ _ _ _ h => h
  finish := fun _ _ h => h
  step := by
    intro w m rest _ hp
    rcases processMessage_cases w m with ⟨he, hA, _⟩ | ⟨w1, he, hh, _, _, hno, hyes⟩
    · rw [he]
      exact fun _ => hp hA
    · rw [he]
      intro hact
      cases hcl : m.close
      · obtain ⟨_, h2⟩ := hno hcl
        exact ⟨w.handled, m, hh, h2.symm, hcl⟩
      · have := hyes hcl
        simp only at hact
        rw [this] at hact
        simp at hact

theorem scanBacklog_deferred (loc : List syncMessage) (w : syncWorker)
    (hw : BacklogDeferred w) (hopen : (scanBacklog w loc).2 = false) :
    BacklogDeferred (scanBacklog w loc).1 :=
  ((scanBacklog_invariant trivial_loopInvariant loc w [] hw trivial).2.2 hopen).1

theorem drainMessages_deferred :
    ∀ (msgs : List syncMessage) (w : syncWorker), BacklogDeferred w →
      (drainMessages w msgs).2 = none → BacklogDeferred (drainMessages w msgs).1 := by
  intro msgs
  induction msgs with
  | nil => intro w hw _; exact hw
  | cons m rest ih =>
    intro w hw hnone
    have hdef := backlogDeferred_step w m hw
    rcases hpm : processMessage w m with ⟨w1, b⟩
    rw [hpm] at hdef
    cases b with
    | true => simp [drainMessages, hpm] at hnone
    | false =>
      simp only [drainMessages, hpm] at hnone ⊢
      exact ih w1 (hdef rfl) hnone

/-- When `workerThread` ends, its backlog holds no message of the active
channel, and is empty when no channel is active. -/
theorem workerThread_deferred :
    ∀ (fuel : Nat) (w : syncWorker) (msgs : List syncMessage) (w1 : syncWorker),
      workerThread fuel w msgs = some w1 → BacklogDeferred w1 := by
  intro fuel
  induction fuel with
  | zero => intro w msgs w1 h; simp [workerThread] at h
  | succ fuel ih =>
    intro w msgs w1 h
    have hw0 : BacklogDeferred { w with backlog := [] } :=
      ⟨fun _ m hm => by simp at hm, fun _ => rfl⟩
    have hscan := scanBacklog_deferred w.backlog { w with backlog := [] } hw0
    simp only [workerThread] at h
    rcases hs : scanBacklog { w with backlog := [] } w.backlog with ⟨wa, b⟩
    rw [hs] at h hscan
    cases b with
    | true => exact ih wa msgs w1 h
    | false =>
      dsimp only at h
      have hdrain := drainMessages_deferred msgs wa (hscan rfl)
      rcases hd : drainMessages wa msgs with ⟨wb, r⟩
      rw [hd] at h hdrain
      cases r with
      | some rest => exact ih wb rest w1 h
      | none =>
        simp only [Option.some.injEq] at h
        subst h
        exact hdrain rfl

theorem everyWaveClosed_last :
    ∀ (msgs : List syncMessage), everyWaveClosed msgs = true →
      ∀ (a : Int) (l : List syncMessage) (m : syncMessage),
        msgs.filter (fun x => decide (x.channel = a)) = l ++ [m] → m.close = true := by
  intro msgs
  induction msgs with
  | nil => intro _ a l m h; simp at h
  | cons x rest ih =>
    intro hall a l m h
    simp only [everyWaveClosed, Bool.and_eq_true, List.any_eq_true] at hall
    obtain ⟨⟨c, hc, hc2⟩, hrest⟩ := hall
    by_cases hx : x.channel = a
    · rw [List.filter_cons_of_pos (by simpa using hx)] at h
      cases l with
      | nil =>
        simp only [List.nil_append, List.cons.injEq] at h
        obtain ⟨hxm, hnil⟩ := h
        simp only [List.mem_cons] at hc
        simp only [Bool.and_eq_true, decide_eq_true_eq] at hc2
        rcases hc with hc | hc
        · rw [← hxm, ← hc]; exact hc2.2
        · have : c ∈ rest.filter (fun x => decide (x.channel = a)) := by
            rw [List.mem_filter]; exact ⟨hc, by simpa using hc2.1.trans hx⟩
          rw [hnil] at this; simp at this
      | cons y l =>
        simp only [List.cons_append, List.cons.injEq] at h
        exact ih hrest a l m h.2
    · rw [List.filter_cons_of_neg (by simpa using hx)] at h
      exact ih hrest a l m h

/-- C11 (no drops when every wave is closed).  For every finite sequence of
messages in which each message is followed, at its own or a later position, by
a close-marker for its own wave, sending the whole sequence and then closing
the intake makes the worker finish and signal `done` with an empty backlog and
no active channel; every submitted message was handled exactly once (the log
is a permutation of the sequence), so every submitted callback ran exactly
once, and on each wave the callbacks ran in exactly the submitted order. -/
theorem C11_no_drops_when_closed (msgs : List syncMessage)
    (hclosed : everyWaveClosed msgs = true) :
    ∃ w, sendAllAndWait msgs = some w ∧ w.done = true ∧
      w.backlog = [] ∧ w.hasActiveChannel = false ∧
      List.Perm w.handled msgs ∧
      List.Perm (w.handled.filterMap (fun m => m.code)) (msgs.filterMap (fun m => m.code)) ∧
      ∀ wave : Int, callbacksOf wave w.handled = callbacksOf wave msgs := by
  obtain ⟨w, hw, hd, hacc, hopen⟩ :=
    workerThread_invariant (loopInvariant_and (accounted_loopInvariant msgs)
      activeOpen_loopInvariant) (msgs.length + 1) newSyncWorker msgs
      (by simp [newSyncWorker])
      ⟨fun c => by simp [newSyncWorker], fun h => by simp [newSyncWorker] at h⟩
  have hdef := workerThread_deferred _ _ _ w hw
  have hidle : w.hasActiveChannel = false := by
    cases hA : w.hasActiveChannel with
    | false => rfl
    | true =>
      obtain ⟨init, m, hh, hch, hcl⟩ := hopen hA
      have hb : w.backlog.filter (fun x => decide (x.channel = w.activeChannel)) = [] := by
        rw [List.filter_eq_nil_iff]
        intro x hx
        simpa using hdef.1 hA x hx
      have h := hacc w.activeChannel
      rw [List.append_nil, hb, List.append_nil, hh, List.filter_append,
        List.filter_cons_of_pos (by simpa using hch), List.filter_nil] at h
      have := everyWaveClosed_last msgs hclosed w.activeChannel _ m h.symm
      rw [hcl] at this
      exact absurd this (by decide)
  have hempty : w.backlog = [] := hdef.2 hidle
  have hfilter : ∀ c : Int, w.handled.filter (fun m => decide (m.channel = c)) =
      msgs.filter (fun m => decide (m.channel = c)) := by
    intro c
    have h := hacc c
    rw [hempty] at h
    simpa using h
  have hperm : List.Perm w.handled msgs := by
    rw [List.perm_iff_count]
    intro a
    have h := congrArg (List.count a) (hfilter a.channel)
    rw [List.count_filter (by simp), List.count_filter (by simp)] at h
    exact h
  refine ⟨w, hw, hd, hempty, hidle, hperm, hperm.filterMap _, fun wave => ?_⟩
  unfold callbacksOf
  rw [hfilter wave]

/-- C11 on a sequence with three waves, closes arriving out of order, and wave
`2` used again after it was closed. -/
theorem C11_no_drops_when_closed_witness :
    ∃ w, sendAllAndWait [SendWork 1 10, SendWork 2 20, SendWork 3 30, SendClose 2,
        SendClose 1, SendWork 2 21, SendClose 3, SendClose 2] = some w ∧ w.done = true ∧
      w.backlog = [] ∧ w.hasActiveChannel = false ∧
      List.Perm w.handled [SendWork 1 10, SendWork 2 20, SendWork 3 30, SendClose 2,
        SendClose 1, SendWork 2 21, SendClose 3, SendClose 2] ∧
      List.Perm (w.handled.filterMap (fun m => m.code))
        ([SendWork 1 10, SendWork 2 20, SendWork 3 30, SendClose 2,
          SendClose 1, SendWork 2 21, SendClose 3, SendClose 2].filterMap (fun m => m.code)) ∧
      ∀ wave : Int, callbacksOf wave w.handled =
        callbacksOf wave [SendWork 1 10, SendWork 2 20, SendWork 3 30, SendClose 2,
          SendClose 1, SendWork 2 21, SendClose 3, SendClose 2] :=
  C11_no_drops_when_closed [SendWork 1 10, SendWork 2 20, SendWork 3 30, SendClose 2,
    SendClose 1, SendWork 2 21, SendClose 3, SendClose 2] (by decide)

end gogroup

/-! ## Theorems: the federated count -/

namespace temaengine

theorem wrapInt64_of_range (x : Int) (h1 : -2 ^ 63 ≤ x) (h2 : x < 2 ^ 63) : wrapInt64 x = x := by
  unfold wrapInt64
  norm_num at h1 h2 ⊢
  omega

theorem wrapInt64_range (x : Int) : -2 ^ 63 ≤ wrapInt64 x ∧ wrapInt64 x < 2 ^ 63 := by
  unfold wrapInt64
  norm_num
  omega

theorem wrapInt64_add (a b : Int) : wrapInt64 (wrapInt64 a + b) = wrapInt64 (a + b) := by
  unfold wrapInt64
  norm_num
  omega

theorem errorsWrap_eq_none (err : Option GoError) (message : String) :
    errorsWrap err message = none ↔ err = none := by
  cases err <;> simp [errorsWrap]

/-- C9 (empty query).  For every connection and every query of kind Empty,
whatever the fuel, `Count` returns `(0, nil)` and its log of backend calls is
empty. -/
theorem C9_empty_query (fuel : Nat) (conn : TemaConnection) (q : query.Query)
    (hkind : q.Kind = query.Kind.EmptyQueryKind) :
    Count fuel conn q = some { count := 0, err := none, calls := [] } := by
  simp [Count, hkind]

/-- C9 on a connection whose backends always fail. -/
theorem C9_empty_query_witness :
    Count 0 failingConnection (sampleQuery query.Kind.EmptyQueryKind) =
      some { count := 0, err := none, calls := [] } :=
  C9_empty_query 0 failingConnection (sampleQuery query.Kind.EmptyQueryKind) rfl

/-- C7 (zero outer hits).  For every federated query whose outer count succeeds
with total `0`, whatever the fuel, `Count` returns `(0, nil)` and the only
entry of its log is that count call: no job is added to a work group, no page
is fetched, the text backend is not called. -/
theorem C7_zero_outer_hits (fuel : Nat) (conn : TemaConnection) (q : query.Query)
    (hkind : q.Kind = query.Kind.TemaSearchQueryKind)
    (hzero : conn.mwsCount q.MWSQuery = (0, none)) :
    Count fuel conn q =
      some { count := 0, err := none, calls := [Call.mwsCount q.MWSQuery] } := by
  simp [Count, hkind, countTemaSearchQuery, hzero, errorsWrap]

/-- C7 on a math backend without hits. -/
theorem C7_zero_outer_hits_witness :
    Count 0 (fixedBackend [] countIds 3 3) federatedQuery =
      some { count := 0, err := none, calls := [Call.mwsCount federatedQuery.MWSQuery] } :=
  C7_zero_outer_hits 0 (fixedBackend [] countIds 3 3) federatedQuery rfl rfl

/-- C8, as stated, fails: when the math backend fails, `Count` on a math-only
query does not return the backend's error but a wrapped one, so the returned
pair differs from the backend's pair. -/
theorem C8_direct_delegation_counterexample :
    (Count 0 failingConnection (sampleQuery query.Kind.MWSQueryKind)).map
        (fun r => (r.count, r.err)) =
      some (0, some (GoError.wrap (GoError.backend "mws down") "countMWSQuery failed")) ∧
    (Count 0 failingConnection (sampleQuery query.Kind.MWSQueryKind)).map
        (fun r => (r.count, r.err)) ≠
      some (failingConnection.mwsCount (sampleQuery query.Kind.MWSQueryKind).MWSQuery) := by
  decide

/-- C8, amended.  For a query of kind MathQuery, `Count` makes exactly one
backend call, the math backend count of the outer query, and returns its count
unchanged together with its error passed through `errors.Wrap` with the message
"countMWSQuery failed"; for a query of kind TextQuery the same holds with the
text backend count of the inner query built with no identifiers and the message
"countElasticQuery failed".  So the returned error is `nil` exactly when the
backend's is, the returned pair is the backend's pair whenever the backend
succeeds, and on failure the cause of the returned error is the cause of the
backend's error. -/
theorem C8_direct_delegation (fuel : Nat) (conn : TemaConnection) (q : query.Query) :
    (q.Kind = query.Kind.MWSQueryKind →
      Count fuel conn q =
        some { count := (conn.mwsCount q.MWSQuery).1,
               err := errorsWrap (conn.mwsCount q.MWSQuery).2 "countMWSQuery failed",
               calls := [Call.mwsCount q.MWSQuery] } ∧
      ((conn.mwsCount q.MWSQuery).2 = none →
        (Count fuel conn q).map (fun r => (r.count, r.err)) =
          some (conn.mwsCount q.MWSQuery)) ∧
      (∀ e, (conn.mwsCount q.MWSQuery).2 = some e →
        ∃ r e1, Count fuel conn q = some r ∧ r.err = some e1 ∧ e1.Cause = e.Cause)) ∧
    (q.Kind = query.Kind.ElasticQueryKind →
      Count fuel conn q =
        some { count := (conn.elasticCount (q.ElasticQuery [])).1,
               err := errorsWrap (conn.elasticCount (q.ElasticQuery [])).2
                 "countElasticQuery failed",
               calls := [Call.elasticCount (q.ElasticQuery [])] } ∧
      ((conn.elasticCount (q.ElasticQuery [])).2 = none →
        (Count fuel conn q).map (fun r => (r.count, r.err)) =
          some (conn.elasticCount (q.ElasticQuery []))) ∧
      (∀ e, (conn.elasticCount (q.ElasticQuery [])).2 = some e →
        ∃ r e1, Count fuel conn q = some r ∧ r.err = some e1 ∧ e1.Cause = e.Cause)) := by
  constructor
  · intro hkind
    have h : Count fuel conn q =
        some { count := (conn.mwsCount q.MWSQuery).1,
               err := errorsWrap (conn.mwsCount q.MWSQuery).2 "countMWSQuery failed",
               calls := [Call.mwsCount q.MWSQuery] } := by
      simp [Count, hkind, countMWSQuery]
    refine ⟨h, fun hn => ?_, fun e he => ?_⟩
    · rw [h]
      rcases hr : conn.mwsCount q.MWSQuery with ⟨c, e⟩
      rw [hr] at hn
      simp only at hn
      simp [hn, errorsWrap]
    · exact ⟨_, GoError.wrap e "countMWSQuery failed", h, by simp [he, errorsWrap], rfl⟩
  · intro hkind
    have h : Count fuel conn q =
        some { count := (conn.elasticCount (q.ElasticQuery [])).1,
               err := errorsWrap (conn.elasticCount (q.ElasticQuery [])).2
                 "countElasticQuery failed",
               calls := [Call.elasticCount (q.ElasticQuery [])] } := by
      simp [Count, hkind, countElasticQuery]
    refine ⟨h, fun hn => ?_, fun e he => ?_⟩
    · rw [h]
      rcases hr : conn.elasticCount (q.ElasticQuery []) with ⟨c, e⟩
      rw [hr] at hn
      simp only at hn
      simp [hn, errorsWrap]
    · exact ⟨_, GoError.wrap e "countElasticQuery failed", h, by simp [he, errorsWrap], rfl⟩

/-- C8 (amended) on a failing math backend: the count is passed on and the
error is wrapped. -/
theorem C8_direct_delegation_witness :
    Count 0 failingConnection (sampleQuery query.Kind.MWSQueryKind) =
      some { count := 0,
             err := some (GoError.wrap (GoError.backend "mws down") "countMWSQuery failed"),
             calls := [Call.mwsCount (sampleQuery query.Kind.MWSQueryKind).MWSQuery] } :=
  ((C8_direct_delegation 0 failingConnection (sampleQuery query.Kind.MWSQueryKind)).1 rfl).1

/-- C4 fails on the code: on the same backend state (hits `1, 2, 3`, every
identifier matching one document, `MaxPageSize = 3`) the federated count is `6`
with `PoolSize = 1`, `4` with `PoolSize = 2`, and `3` with `PoolSize = 5` and
with `PoolSize = 1000`. -/
theorem C4_count_depends_on_poolSize :
    (Count 10 (fixedBackend [1, 2, 3] countIds 1 3) federatedQuery).map
        (fun r => (r.count, r.err)) = some (6, none) ∧
    (Count 10 (fixedBackend [1, 2, 3] countIds 2 3) federatedQuery).map
        (fun r => (r.count, r.err)) = some (4, none) ∧
    (Count 10 (fixedBackend [1, 2, 3] countIds 5 3) federatedQuery).map
        (fun r => (r.count, r.err)) = some (3, none) ∧
    (Count 10 (fixedBackend [1, 2, 3] countIds 1000 3) federatedQuery).map
        (fun r => (r.count, r.err)) = some (3, none) := by
  decide

/-- C6, as stated, fails: with outer total `7`, `PoolSize = 3` and
`MaxPageSize = 3` the pages are requested at the offsets `0`, `3` and `6`, and
no page is requested at offset `9`. -/
theorem C6_offsets_counterexample :
    (Count 10 (fixedBackend [1, 2, 3, 4, 5, 6, 7] countIds 3 3) federatedQuery).map
        (fun r => pagesRequested r.calls) = some [0, 3, 6] ∧
    (Count 10 (fixedBackend [1, 2, 3, 4, 5, 6, 7] countIds 3 3) federatedQuery).map
        (fun r => pagesRequested r.calls) ≠ some [0, 3, 6, 9] := by
  decide

theorem pageOffsets_safe (p total : Nat) (hp : 1 ≤ p) (hov : (total : Int) + p < 2 ^ 63) :
    ∀ (fuel i : Nat), i ≤ total + p → 1 ≤ fuel → total + 2 ≤ fuel + i →
      pageOffsets fuel (i : Int) (total : Int) (p : Int) =
        some ((List.range' i ((total + p - i) / p) p).map Int.ofNat) := by
  intro fuel
  induction fuel with
  | zero => intro i _ h; omega
  | succ fuel ih =>
    intro i hi _ hfuel
    unfold pageOffsets
    by_cases hle : i ≤ total
    · have hw : wrapInt64 ((i : Int) + (p : Int)) = ((i + p : Nat) : Int) := by
        rw [wrapInt64_of_range] <;> push_cast <;> omega
      have hdiv : (total + p - i) / p = (total + p - (i + p)) / p + 1 := by
        have : total + p - i = (total + p - (i + p)) + p := by omega
        rw [this, Nat.add_div_right _ (by omega)]
      have hcond : (i : Int) ≤ (total : Int) := by exact_mod_cast hle
      rw [if_pos hcond, hw, ih (i + p) (by omega) (by omega) (by omega), hdiv]
      simp [List.range'_succ]
    · have hcond : ¬ (i : Int) ≤ (total : Int) := by exact_mod_cast hle
      have hdiv : (total + p - i) / p = 0 := Nat.div_eq_of_lt (by omega)
      rw [if_neg hcond, hdiv]
      simp

theorem wrapInt64_idem (a : Int) : wrapInt64 (wrapInt64 a) = wrapInt64 a := by
  have := wrapInt64_add a 0
  simpa using this

theorem pageJob_noError (conn : TemaConnection) (q : query.Query) (start : Int)
    (st : CountState)
    (hrun : ∀ s, (conn.mwsRun q.MWSQuery s conn.MaxPageSize).2 = none)
    (hel : ∀ eq, (conn.elasticCount eq).2 = none)
    (hst : wrapInt64 st.count = st.count) :
    pageJob conn q q.MWSQuery start st =
      ({ count := wrapInt64 (st.count + pageCount conn q start),
         calls := st.calls ++ jobCalls conn q start }, none) := by
  by_cases hempty : (pageOf conn q start).length = 0
  · have h1 : (conn.mwsRun q.MWSQuery start conn.MaxPageSize).1.length = 0 := hempty
    simp [pageJob, pageCount, jobCalls, hempty, h1, hrun, errorsWrap, hst]
  · have h1 : ¬ (conn.mwsRun q.MWSQuery start conn.MaxPageSize).1.length = 0 := hempty
    have h2 : ¬ (conn.mwsRun q.MWSQuery start conn.MaxPageSize).1 = [] := by
      simpa using h1
    have h3 : ¬ pageOf conn q start = [] := h2
    simp [pageJob, pageCount, jobCalls, h2, h3, hrun, hel, errorsWrap, pageOf]

theorem runJobs_noError (conn : TemaConnection) (q : query.Query)
    (hrun : ∀ s, (conn.mwsRun q.MWSQuery s conn.MaxPageSize).2 = none)
    (hel : ∀ eq, (conn.elasticCount eq).2 = none) :
    ∀ (offsets : List Int) (st : CountState), wrapInt64 st.count = st.count →
      runJobs (offsets.map (pageJob conn q q.MWSQuery)) st =
        ({ count := wrapInt64 (st.count + (offsets.map (pageCount conn q)).sum),
           calls := st.calls ++ (offsets.map (jobCalls conn q)).flatten }, none) := by
  intro offsets
  induction offsets with
  | nil => intro st hst; simp [runJobs, hst]
  | cons o rest ih =>
    intro st hst
    simp only [List.map_cons, runJobs, pageJob_noError conn q o st hrun hel hst]
    rw [ih _ (wrapInt64_idem _)]
    simp only [wrapInt64_add, List.sum_cons, List.flatten_cons, List.append_assoc, add_assoc]

theorem addJobs_eq (conn : TemaConnection) (q : query.Query) (qq : query.MWSQuery) :
    ∀ (offsets : List Int) (gs : WorkGroup × CountState),
      addJobs conn q qq offsets gs =
        ({ gs.1 with jobs := gs.1.jobs ++ offsets.map (pageJob conn q qq) },
         { gs.2 with calls := gs.2.calls ++ offsets.map Call.groupAdd }) := by
  intro offsets
  induction offsets with
  | nil => intro gs; simp [addJobs]
  | cons o rest ih =>
    intro gs
    simp [addJobs, ih, WorkGroup.Add]

/-- The federated count when no backend call fails and the loop over the
offsets has ended with `offsets`. -/
theorem countTemaSearchQuery_noError (fuel : Nat) (conn : TemaConnection) (q : query.Query)
    (total : Int) (offsets : List Int)
    (hcount : conn.mwsCount q.MWSQuery = (total, none)) (htotal : total ≠ 0)
    (hrun : ∀ s, (conn.mwsRun q.MWSQuery s conn.MaxPageSize).2 = none)
    (hel : ∀ eq, (conn.elasticCount eq).2 = none)
    (hoff : pageOffsets fuel 0 total conn.PoolSize = some offsets) :
    countTemaSearchQuery fuel conn q =
      some { count := wrapInt64 ((offsets.map (pageCount conn q)).sum),
             err := none,
             calls := Call.mwsCount q.MWSQuery :: (offsets.map Call.groupAdd ++
               (offsets.map (jobCalls conn q)).flatten) } := by
  have hw0 : wrapInt64 (0 : Int) = 0 := by decide
  simp only [countTemaSearchQuery, hcount, errorsWrap, hoff, addJobs_eq, NewWorkGroup,
    WorkGroup.Wait, List.nil_append]
  rw [runJobs_noError conn q hrun hel offsets _ hw0]
  simp [htotal]

theorem pagesRequested_append (l1 l2 : List Call) :
    pagesRequested (l1 ++ l2) = pagesRequested l1 ++ pagesRequested l2 := by
  induction l1 with
  | nil => rfl
  | cons c rest ih => cases c <;> simp [pagesRequested, ih]

theorem jobsAdded_append (l1 l2 : List Call) :
    jobsAdded (l1 ++ l2) = jobsAdded l1 ++ jobsAdded l2 := by
  induction l1 with
  | nil => rfl
  | cons c rest ih => cases c <;> simp [jobsAdded, ih]

theorem log_offsets (conn : TemaConnection) (q : query.Query) (offsets : List Int) :
    pagesRequested (offsets.map Call.groupAdd) = [] ∧
    jobsAdded (offsets.map Call.groupAdd) = offsets ∧
    pagesRequested ((offsets.map (jobCalls conn q)).flatten) = offsets ∧
    jobsAdded ((offsets.map (jobCalls conn q)).flatten) = [] := by
  induction offsets with
  | nil => simp [pagesRequested, jobsAdded]
  | cons o rest ih =>
    obtain ⟨h1, h2, h3, h4⟩ := ih
    refine ⟨by simpa [pagesRequested] using h1, by simpa [jobsAdded] using h2, ?_, ?_⟩
    · simp only [List.map_cons, List.flatten_cons, pagesRequested_append, h3]
      unfold jobCalls; split <;> simp [pagesRequested]
    · simp only [List.map_cons, List.flatten_cons, jobsAdded_append, h4]
      unfold jobCalls; split <;> simp [jobsAdded]

theorem log_noError (conn : TemaConnection) (q : query.Query) (offsets : List Int) :
    pagesRequested (Call.mwsCount q.MWSQuery :: (offsets.map Call.groupAdd ++
      (offsets.map (jobCalls conn q)).flatten)) = offsets ∧
    jobsAdded (Call.mwsCount q.MWSQuery :: (offsets.map Call.groupAdd ++
      (offsets.map (jobCalls conn q)).flatten)) = offsets := by
  obtain ⟨l1, l2, l3, l4⟩ := log_offsets conn q offsets
  constructor
  · show pagesRequested (offsets.map Call.groupAdd ++ _) = offsets
    rw [pagesRequested_append, l1, l3, List.nil_append]
  · show jobsAdded (offsets.map Call.groupAdd ++ _) = offsets
    rw [jobsAdded_append, l2, l4, List.append_nil]

theorem pageJob_jobsAdded (conn : TemaConnection) (q : query.Query) (qq : query.MWSQuery)
    (start : Int) (st : CountState) :
    jobsAdded (pageJob conn q qq start st).1.calls = jobsAdded st.calls := by
  unfold pageJob
  dsimp only
  split
  · simp [jobsAdded_append, jobsAdded]
  · split <;> simp [jobsAdded_append, jobsAdded]

theorem runJobs_jobsAdded (conn : TemaConnection) (q : query.Query) (qq : query.MWSQuery) :
    ∀ (offsets : List Int) (st : CountState),
      jobsAdded (runJobs (offsets.map (pageJob conn q qq)) st).1.calls = jobsAdded st.calls := by
  intro offsets
  induction offsets with
  | nil => intro st; rfl
  | cons o rest ih =>
    intro st
    have hj := pageJob_jobsAdded conn q qq o st
    rcases hp : pageJob conn q qq o st with ⟨st1, e⟩
    rw [hp] at hj
    cases e with
    | some e => simpa [runJobs, hp] using hj
    | none =>
      simp only [List.map_cons, runJobs, hp]
      rw [ih st1]; exact hj

/-- The jobs added by the federated count are those of the offsets of the loop,
whether or not a backend call of a job fails. -/
theorem countTemaSearchQuery_jobsAdded (fuel : Nat) (conn : TemaConnection) (q : query.Query)
    (total : Int) (offsets : List Int)
    (hcount : conn.mwsCount q.MWSQuery = (total, none)) (htotal : total ≠ 0)
    (hoff : pageOffsets fuel 0 total conn.PoolSize = some offsets) :
    ∃ r, countTemaSearchQuery fuel conn q = some r ∧ jobsAdded r.calls = offsets := by
  refine ⟨_, by simp only [countTemaSearchQuery, hcount, errorsWrap, hoff, addJobs_eq,
    NewWorkGroup, WorkGroup.Wait, List.nil_append]; simp [htotal]; rfl, ?_⟩
  dsimp only
  rw [runJobs_jobsAdded]
  show jobsAdded (offsets.map Call.groupAdd) = offsets
  exact (log_offsets conn q offsets).2.1

/-- C6, amended.  For a federated query with outer total `7` and `PoolSize = 3`
(whatever `MaxPageSize` is, `3` included), with at least four units of fuel,
`Count` returns and a job is added for exactly the offsets `0`, `3`, `6`, none
for `9`.  When moreover no backend call fails, the outer pages are requested
at exactly the offsets `0`, `3`, `6`, no error is returned, and the returned
count is the `int64` wrap-around sum of what the pages at `0`, `3` and `6`
contribute (the text backend's count for a page with identifiers, nothing for
an empty page); it is the plain sum whenever that sum is an `int64`. -/
theorem C6_offsets (fuel : Nat) (conn : TemaConnection) (q : query.Query)
    (hkind : q.Kind = query.Kind.TemaSearchQueryKind)
    (hpool : conn.PoolSize = 3)
    (hcount : conn.mwsCount q.MWSQuery = (7, none))
    (hfuel : 4 ≤ fuel) :
    ∃ r, Count fuel conn q = some r ∧ jobsAdded r.calls = [0, 3, 6] ∧
      ((∀ s, (conn.mwsRun q.MWSQuery s conn.MaxPageSize).2 = none) →
        (∀ eq, (conn.elasticCount eq).2 = none) →
        r.err = none ∧ pagesRequested r.calls = [0, 3, 6] ∧
        r.count =
          wrapInt64 (pageCount conn q 0 + pageCount conn q 3 + pageCount conn q 6) ∧
        (-2 ^ 63 ≤ pageCount conn q 0 + pageCount conn q 3 + pageCount conn q 6 →
          pageCount conn q 0 + pageCount conn q 3 + pageCount conn q 6 < 2 ^ 63 →
          r.count = pageCount conn q 0 + pageCount conn q 3 + pageCount conn q 6)) := by
  obtain ⟨n, rfl⟩ : ∃ n, fuel = n + 4 := ⟨fuel - 4, by omega⟩
  have hoff : pageOffsets (n + 4) 0 7 conn.PoolSize = some [0, 3, 6] := by
    have h3 : wrapInt64 3 = 3 := by decide
    have h6 : wrapInt64 6 = 6 := by decide
    have h9 : wrapInt64 9 = 9 := by decide
    rw [hpool]
    simp [pageOffsets, h3, h6, h9]
  obtain ⟨r0, hr0, hj⟩ := countTemaSearchQuery_jobsAdded (n + 4) conn q 7 [0, 3, 6] hcount
    (by decide) hoff
  refine ⟨{ r0 with err := errorsWrap r0.err "countTemaSearchQuery failed" },
    by simp [Count, hkind, hr0], hj, ?_⟩
  intro hrun hel
  have h := countTemaSearchQuery_noError (n + 4) conn q 7 [0, 3, 6] hcount (by decide)
    hrun hel hoff
  rw [h] at hr0
  obtain ⟨l1, _⟩ := log_noError conn q [0, 3, 6]
  cases hr0
  have hsum : wrapInt64 ((List.map (pageCount conn q) [0, 3, 6]).sum) =
      wrapInt64 (pageCount conn q 0 + pageCount conn q 3 + pageCount conn q 6) := by
    simp [add_assoc]
  refine ⟨rfl, l1, hsum, fun hlo hhi => ?_⟩
  exact hsum.trans (wrapInt64_of_range _ hlo hhi)

/-- C6 (amended) on a math backend with the seven hits `1, ..., 7`, none of
whose calls fails, and a text backend with one document per identifier: the
pages at `0`, `3`, `6` contribute `3`, `3` and `1`, and the count is `7`. -/
theorem C6_offsets_witness :
    ∃ r, Count 4 (fixedBackend [1, 2, 3, 4, 5, 6, 7] countIds 3 3) federatedQuery = some r ∧
      jobsAdded r.calls = [0, 3, 6] ∧
      r.err = none ∧ pagesRequested r.calls = [0, 3, 6] ∧
      r.count = wrapInt64
        (pageCount (fixedBackend [1, 2, 3, 4, 5, 6, 7] countIds 3 3) federatedQuery 0 +
         pageCount (fixedBackend [1, 2, 3, 4, 5, 6, 7] countIds 3 3) federatedQuery 3 +
         pageCount (fixedBackend [1, 2, 3, 4, 5, 6, 7] countIds 3 3) federatedQuery 6) ∧
      r.count = 7 := by
  obtain ⟨r, h1, h2, h3⟩ :=
    C6_offsets 4 (fixedBackend [1, 2, 3, 4, 5, 6, 7] countIds 3 3) federatedQuery rfl rfl rfl
      (by decide)
  obtain ⟨h4, h5, h6, h7⟩ := h3 (fun _ => rfl) (fun _ => rfl)
  exact ⟨r, h1, h2, h4, h5, h6, (h7 (by decide) (by decide)).trans (by decide)⟩

theorem pageOffsets_huge : ∀ (fuel : Nat) (i : Int), -2 ^ 63 ≤ i → i < 2 ^ 63 →
    pageOffsets fuel i maxInt64 1 = none := by
  intro fuel
  induction fuel with
  | zero => intro i _ _; rfl
  | succ fuel ih =>
    intro i h1 h2
    have hle : i ≤ maxInt64 := by unfold maxInt64; omega
    have hr := wrapInt64_range (i + 1)
    simp [pageOffsets, hle, ih (wrapInt64 (i + 1)) hr.1 hr.2]

/-- C5, as stated, fails: with outer total `9223372036854775807` (the largest
`int64`) and `PoolSize = MaxPageSize = 1`, the loop that adds the jobs does not
terminate, whatever the fuel: its counter wraps around instead of exceeding
the total. -/
theorem C5_pagination_counterexample :
    ¬ ∃ fuel : Nat, (Count fuel hugeTotalConnection federatedQuery).isSome = true := by
  rintro ⟨fuel, h⟩
  have hoff : pageOffsets fuel 0 maxInt64 1 = none :=
    pageOffsets_huge fuel 0 (by norm_num) (by norm_num)
  have hne : ¬ maxInt64 = 0 := by decide
  simp [Count, federatedQuery, sampleQuery, countTemaSearchQuery, hugeTotalConnection,
    errorsWrap, hoff, hne] at h


theorem windows_cover (p total k : Nat) (hp : 1 ≤ p) (hk : k < total) :
    ∃! o : Int, o ∈ (List.range' 0 (total / p + 1) p).map Int.ofNat ∧
      o ≤ (k : Int) ∧ (k : Int) < o + (p : Int) := by
  have h1 : p * (k / p) ≤ k := Nat.mul_div_le k p
  have h2 : k < p * (k / p + 1) := Nat.lt_mul_div_succ k (by omega)
  have h3 : k / p ≤ total / p := Nat.div_le_div_right (by omega)
  refine ⟨((p * (k / p) : Nat) : Int), ⟨?_, ?_, ?_⟩, ?_⟩
  · simp only [List.mem_map, List.mem_range']
    exact ⟨p * (k / p), ⟨k / p, by omega, by simp⟩, rfl⟩
  · exact_mod_cast h1
  · have : k < p * (k / p) + p := by rw [Nat.mul_add, Nat.mul_one] at h2; exact h2
    exact_mod_cast this
  · rintro o ⟨hmem, hle, hlt⟩
    simp only [List.mem_map, List.mem_range'] at hmem
    obtain ⟨m, ⟨j, _, rfl⟩, rfl⟩ := hmem
    simp only [Nat.zero_add, Int.ofNat_eq_coe] at hle hlt ⊢
    have hle1 : p * j ≤ k := by exact_mod_cast hle
    have hlt1 : k < p * j + p := by exact_mod_cast hlt
    have hj1 : j ≤ k / p := (Nat.le_div_iff_mul_le (by omega)).mpr (by rw [Nat.mul_comm]; exact hle1)
    have hj2 : k / p < j + 1 := (Nat.div_lt_iff_lt_mul (by omega)).mpr (by
      rw [Nat.add_mul, Nat.one_mul, Nat.mul_comm]; exact hlt1)
    have : j = k / p := by omega
    rw [this]

theorem windows_partition (hits : List Int) (p : Nat) :
    ∀ (n s : Nat), hits.length ≤ s + n * p →
      ((List.range' s n p).map (fun o => (hits.drop o).take p)).flatten = hits.drop s := by
  intro n
  induction n with
  | zero =>
    intro s h
    simp only [Nat.zero_mul, Nat.add_zero] at h
    simp [List.drop_eq_nil_of_le h]
  | succ n ih =>
    intro s h
    rw [List.range'_succ, List.map_cons, List.flatten_cons,
      ih (s + p) (by rw [Nat.add_mul] at h; omega)]
    rw [← List.drop_drop]
    exact List.take_append_drop p (hits.drop s)


/-- C5, amended.  Let the math backend hold `total` hits served by
offset/limit, let `PoolSize = MaxPageSize = p` with `p ≥ 1`, let no backend
fail, and let `total + p` not exceed the largest `int64`.  Then, with
`total + 2` units of fuel or more, the federated `Count` ends without error;
the pages are requested at the offsets `0, p, 2p, ...` up to `total` (none at
all when `total = 0`); every position `k < total` lies in the window
`[o, o + p)` of exactly one requested offset `o`; the requested pages, put one
after the other, are the hits; and the returned count is the `int64` sum of
what the requested pages contribute (the text backend's count for a page with
identifiers, nothing for an empty page), which is the plain sum when that is
an `int64`. -/
theorem C5_pagination_boundary (hits : List Int) (textCount : query.ElasticQuery → Int)
    (p : Nat) (q : query.Query) (fuel : Nat)
    (hkind : q.Kind = query.Kind.TemaSearchQueryKind) (hp : 1 ≤ p)
    (hov : (hits.length : Int) + (p : Int) ≤ maxInt64) (hfuel : hits.length + 2 ≤ fuel) :
    ∃ r, Count fuel (fixedBackend hits textCount p p) q = some r ∧ r.err = none ∧
      pagesRequested r.calls =
        (if hits.length = 0 then []
         else (List.range' 0 (hits.length / p + 1) p).map Int.ofNat) ∧
      (∀ k : Nat, k < hits.length →
        ∃! o : Int, o ∈ pagesRequested r.calls ∧ o ≤ (k : Int) ∧ (k : Int) < o + (p : Int)) ∧
      ((pagesRequested r.calls).map
        (pageOf (fixedBackend hits textCount p p) q)).flatten = hits ∧
      r.count = wrapInt64 (((pagesRequested r.calls).map
        (pageCount (fixedBackend hits textCount p p) q)).sum) ∧
      (-2 ^ 63 ≤ ((pagesRequested r.calls).map
          (pageCount (fixedBackend hits textCount p p) q)).sum →
        ((pagesRequested r.calls).map
          (pageCount (fixedBackend hits textCount p p) q)).sum < 2 ^ 63 →
        r.count = ((pagesRequested r.calls).map
          (pageCount (fixedBackend hits textCount p p) q)).sum) := by
  by_cases h0 : hits.length = 0
  · have hnil : hits = [] := List.length_eq_zero.mp h0
    subst hnil
    refine ⟨{ count := 0, err := none, calls := [Call.mwsCount q.MWSQuery] }, ?_, rfl, ?_,
      ?_, ?_, ?_, ?_⟩
    · simp [Count, hkind, countTemaSearchQuery, fixedBackend, errorsWrap]
    · simp [pagesRequested]
    · intro k hk; simp at hk
    · simp [pagesRequested]
    · simp only [pagesRequested, List.map_nil, List.sum_nil]; decide
    · intro _ _; simp [pagesRequested]
  · have hov1 : (hits.length : Int) + (p : Int) < 2 ^ 63 := by
      unfold maxInt64 at hov; omega
    have hoff := pageOffsets_safe p hits.length hp hov1 fuel 0 (by omega) (by omega) (by omega)
    have hdiv : (hits.length + p - 0) / p = hits.length / p + 1 := by
      rw [Nat.sub_zero, Nat.add_div_right _ (by omega)]
    rw [hdiv] at hoff
    have hoff1 : pageOffsets fuel 0 ((hits.length : Nat) : Int)
        (fixedBackend hits textCount p p).PoolSize =
        some ((List.range' 0 (hits.length / p + 1) p).map Int.ofNat) := hoff
    have h := countTemaSearchQuery_noError fuel (fixedBackend hits textCount p p) q
      ((hits.length : Nat) : Int) _ rfl (by exact_mod_cast h0) (fun _ => rfl) (fun _ => rfl) hoff1
    obtain ⟨l1, _⟩ := log_noError (fixedBackend hits textCount p p) q
      ((List.range' 0 (hits.length / p + 1) p).map Int.ofNat)
    refine ⟨_, by simp only [Count, hkind, h]; rfl, rfl, ?_, ?_, ?_, ?_, ?_⟩
    · simp only [errorsWrap, l1, if_neg h0]
    · intro k hk
      simp only [errorsWrap, l1]
      exact windows_cover p hits.length k hp hk
    · dsimp only
      rw [l1, List.map_map]
      have hfun : (pageOf (fixedBackend hits textCount p p) q ∘ Int.ofNat) =
          fun o => (hits.drop o).take p := by
        funext o; simp [pageOf, fixedBackend]
      rw [hfun, windows_partition hits p (hits.length / p + 1) 0 (by
        have := Nat.lt_mul_div_succ hits.length (show 0 < p by omega)
        rw [Nat.mul_comm] at this; omega)]
      rfl
    · simp only [errorsWrap, l1]
    · intro hlo hhi
      simp only [errorsWrap, l1] at hlo hhi ⊢
      exact wrapInt64_of_range _ hlo hhi

/-- C5 (amended) on seven hits with `p = 3`, where `3` does not divide `7`. -/
theorem C5_pagination_boundary_witness :
    ∃ r, Count 9 (fixedBackend [1, 2, 3, 4, 5, 6, 7] countIds (3 : Nat) (3 : Nat))
        federatedQuery = some r ∧ r.err = none ∧
      pagesRequested r.calls =
        (if [(1 : Int), 2, 3, 4, 5, 6, 7].length = 0 then []
         else (List.range' 0 ([(1 : Int), 2, 3, 4, 5, 6, 7].length / 3 + 1) 3).map Int.ofNat) ∧
      (∀ k : Nat, k < [(1 : Int), 2, 3, 4, 5, 6, 7].length →
        ∃! o : Int, o ∈ pagesRequested r.calls ∧ o ≤ (k : Int) ∧
          (k : Int) < o + ((3 : Nat) : Int)) ∧
      ((pagesRequested r.calls).map
        (pageOf (fixedBackend [1, 2, 3, 4, 5, 6, 7] countIds (3 : Nat) (3 : Nat))
          federatedQuery)).flatten = [1, 2, 3, 4, 5, 6, 7] ∧
      r.count = wrapInt64 (((pagesRequested r.calls).map
        (pageCount (fixedBackend [1, 2, 3, 4, 5, 6, 7] countIds (3 : Nat) (3 : Nat))
          federatedQuery)).sum) ∧
      (-2 ^ 63 ≤ ((pagesRequested r.calls).map
          (pageCount (fixedBackend [1, 2, 3, 4, 5, 6, 7] countIds (3 : Nat) (3 : Nat))
            federatedQuery)).sum →
        ((pagesRequested r.calls).map
          (pageCount (fixedBackend [1, 2, 3, 4, 5, 6, 7] countIds (3 : Nat) (3 : Nat))
            federatedQuery)).sum < 2 ^ 63 →
        r.count = ((pagesRequested r.calls).map
          (pageCount (fixedBackend [1, 2, 3, 4, 5, 6, 7] countIds (3 : Nat) (3 : Nat))
            federatedQuery)).sum) :=
  C5_pagination_boundary [1, 2, 3, 4, 5, 6, 7] countIds 3 federatedQuery 9 rfl (by decide)
    (by decide) (by decide)

end temaengine

/-! ## Theorems: the MathML annotation selection -/

namespace utils

theorem appendOnAttr_eq (nodes : List Node) (node : Node) (localName : String) :
    ∀ attrs : List Attr, appendOnAttr nodes node localName attrs =
      if attrs.any (fun a => decide (a.Name.Local = localName)) then nodes ++ [node]
      else nodes := by
  intro attrs
  induction attrs with
  | nil => simp [appendOnAttr]
  | cons a rest ih =>
    by_cases h : a.Name.Local = localName
    · simp [appendOnAttr, h]
    · simp [appendOnAttr, h, ih]

theorem filterLoop_eq (localName : String) :
    ∀ (nodesIn nodes : List Node), filterLoop localName nodesIn nodes =
      nodes ++ nodesIn.filter
        (fun n => n.Attr.any (fun a => decide (a.Name.Local = localName))) := by
  intro nodesIn
  induction nodesIn with
  | nil => intro nodes; simp [filterLoop]
  | cons n rest ih =>
    intro nodes
    rw [filterLoop, ih, appendOnAttr_eq]
    by_cases h : n.Attr.any (fun a => decide (a.Name.Local = localName)) = true
    · simp [h, List.filter_cons]
    · simp [h, List.filter_cons]

/-- What `filterByAttributeLocalName` computes: the nodes that carry an
attribute with the local name `localName`, in input order, whatever `value`
is. -/
theorem filterByAttributeLocalName_eq (nodesIn : List Node) (localName value : String) :
    filterByAttributeLocalName nodesIn localName value =
      nodesIn.filter (fun n => n.Attr.any (fun a => decide (a.Name.Local = localName))) := by
  simp [filterByAttributeLocalName, filterLoop_eq]

/-- C10 fails on the code.  For the single node
`<annotation-xml encoding="application/x-tex">`, the call
`filterByAttributeLocalName(nodes, "encoding", "MathML-Content")` returns that
node although no attribute of it has the value `MathML-Content`, and the
selection step of `ParseMathML` picks it instead of reporting that there is no
MathML-Content annotation. -/
theorem C10_value_not_compared :
    filterByAttributeLocalName [texNode] "encoding" "MathML-Content" = [texNode] ∧
    (∀ a ∈ texNode.Attr, a.Value ≠ "MathML-Content") ∧
    pickAnnotated [texNode] = Except.ok texNode := by
  have h : filterByAttributeLocalName [texNode] "encoding" "MathML-Content" =
      [texNode] := by decide
  refine ⟨h, by decide, ?_⟩
  simp only [pickAnnotated, h]

end utils
